import Mathlib

/-!
Shallow embedding of the excerpted neuralmonkey core:
  - trainers/rl_trainer.py   (ReinforceObjective.loss)
  - encoders/recurrent.py    (_make_rnn_spec, RecurrentEncoder.__init__)
  - decoders/sequence_regressor.py (SequenceRegressor)
  - readers/numpy_reader.py  (single_tensor, from_file_list)

Tensors are embedded as functions or lists over ℚ.  To talk about the
gradient semantics of tf.stop_gradient, scalars in the RL loss graph are
dual numbers (value, derivative with respect to one fixed model
parameter); every tensorflow op used by the loss is given its
forward-mode derivative, and tf.stop_gradient zeroes the derivative.
-/

/-- A dual number: the value of a graph node together with its derivative
with respect to a fixed scalar model parameter (forward-mode AD). -/
structure Dual where
  val : ℚ
  grad : ℚ
deriving DecidableEq, Repr

/-- Addition of graph nodes (tf add). -/
def Dual.add (x y : Dual) : Dual := ⟨x.val + y.val, x.grad + y.grad⟩

/-- Subtraction of graph nodes (tf subtract). -/
def Dual.sub (x y : Dual) : Dual := ⟨x.val - y.val, x.grad - y.grad⟩

/-- Multiplication of graph nodes (tf multiply), with the product rule. -/
def Dual.mul (x y : Dual) : Dual :=
  ⟨x.val * y.val, x.grad * y.val + x.val * y.grad⟩

/-- tf.negative. -/
def Dual.neg (x : Dual) : Dual := ⟨-x.val, -x.grad⟩

/-- Multiplication by a python-float constant (carries no gradient). -/
def Dual.scale (c : ℚ) (x : Dual) : Dual := ⟨c * x.val, c * x.grad⟩

/-- A constant graph node. -/
def Dual.const (c : ℚ) : Dual := ⟨c, 0⟩

/-- tf.stop_gradient: same value, no derivative flows through. -/
def Dual.stopGradient (x : Dual) : Dual := ⟨x.val, 0⟩

/-- Sum of `f 0, …, f (n-1)` (tf.reduce_sum along an axis of length n). -/
def Dual.sumRange (f : Nat → Dual) : Nat → Dual
  | 0 => ⟨0, 0⟩
  | n + 1 => (Dual.sumRange f n).add (f n)

@[simp] theorem Dual.add_val (x y : Dual) : (x.add y).val = x.val + y.val := rfl

@[simp] theorem Dual.add_grad (x y : Dual) : (x.add y).grad = x.grad + y.grad := rfl

@[simp] theorem Dual.sub_val (x y : Dual) : (x.sub y).val = x.val - y.val := rfl

@[simp] theorem Dual.sub_grad (x y : Dual) : (x.sub y).grad = x.grad - y.grad := rfl

@[simp] theorem Dual.mul_val (x y : Dual) : (x.mul y).val = x.val * y.val := rfl

@[simp] theorem Dual.mul_grad (x y : Dual) :
    (x.mul y).grad = x.grad * y.val + x.val * y.grad := rfl

@[simp] theorem Dual.neg_val (x : Dual) : x.neg.val = -x.val := rfl

@[simp] theorem Dual.neg_grad (x : Dual) : x.neg.grad = -x.grad := rfl

@[simp] theorem Dual.scale_val (c : ℚ) (x : Dual) : (x.scale c).val = c * x.val := rfl

@[simp] theorem Dual.scale_grad (c : ℚ) (x : Dual) : (x.scale c).grad = c * x.grad := rfl

@[simp] theorem Dual.const_val (c : ℚ) : (Dual.const c).val = c := rfl

@[simp] theorem Dual.const_grad (c : ℚ) : (Dual.const c).grad = 0 := rfl

@[simp] theorem Dual.stopGradient_val (x : Dual) : x.stopGradient.val = x.val := rfl

@[simp] theorem Dual.stopGradient_grad (x : Dual) : x.stopGradient.grad = 0 := rfl

theorem Dual.sumRange_val (f : Nat → Dual) (n : Nat) :
    (Dual.sumRange f n).val = ∑ i in Finset.range n, (f i).val := by
  induction n with
  | zero => simp [Dual.sumRange]
  | succ n ih => simp [Dual.sumRange, Finset.sum_range_succ, ih]

theorem Dual.sumRange_grad (f : Nat → Dual) (n : Nat) :
    (Dual.sumRange f n).grad = ∑ i in Finset.range n, (f i).grad := by
  induction n with
  | zero => simp [Dual.sumRange]
  | succ n ih => simp [Dual.sumRange, Finset.sum_range_succ, ih]

/-!
## ReinforceObjective.loss (trainers/rl_trainer.py)

The loss graph, lines 146-192.  The stacked rewards and log-probabilities
are (sample, batch)-indexed matrices `Nat → Nat → Dual`; `sample_size`
and the batch size bound the indices that matter.  tf.nn.softmax over the
sample dimension (used when `normalize` is set) is an external kernel and
is kept abstract as a matrix-to-matrix parameter.
-/

/-- Configuration of `ReinforceObjective` (constructor arguments that the
loss reads). -/
structure RLConfig where
  subtract_baseline : Bool
  normalize : Bool
  temperature : ℚ
  ce_smoothing : ℚ
  alpha : ℚ
  sample_size : Nat
deriving DecidableEq, Repr

/-- The two persistent accumulator variables `reward_sum` and
`reward_counter` (tf.Variable, trainable=False). -/
structure RLState where
  reward_sum : ℚ
  reward_counter : ℚ
deriving DecidableEq, Repr

/-- Embeds `tf.reduce_sum(samples_rewards_stacked)`: the sum of the values of the
whole (sample_size, batch) reward matrix. -/
def rewards_total (S B : Nat) (rewards : Nat → Nat → Dual) : ℚ :=
  ∑ i in Finset.range S, ∑ j in Finset.range B, (rewards i j).val

/-- One training step's updates of the two accumulators:
`reward_counter += batch_size * sample_size` and
`reward_sum += reduce_sum(samples_rewards_stacked)` (lines 155-160). -/
def rl_state_step (st : RLState) (B S : Nat) (total : ℚ) : RLState :=
  ⟨st.reward_sum + total, st.reward_counter + ((B * S : Nat) : ℚ)⟩

/-- Embeds `baseline = tf.div(reward_sum, tf.maximum(reward_counter, 1.0))`
(lines 162-163), computed from the already-incremented variables. -/
def rl_baseline (st : RLState) : ℚ := st.reward_sum / max st.reward_counter 1

/-- Embeds `scored_probs = tf.stop_gradient(tf.negative(rewards)) * probs`
(lines 175-176). -/
def scored_probs (rewards probs : Nat → Nat → Dual) (i j : Nat) : Dual :=
  (Dual.stopGradient (Dual.neg (rewards i j))).mul (probs i j)

/-- Embeds `total_loss = tf.reduce_sum(scored_probs, axis=0)` (line 179): sum over
the sample dimension for a fixed batch element `j`. -/
def total_loss (S : Nat) (rewards probs : Nat → Nat → Dual) (j : Nat) : Dual :=
  Dual.sumRange (fun i => scored_probs rewards probs i j) S

/-- Embeds `batch_loss = tf.reduce_mean(total_loss)` (line 182): the mean over the
batch dimension, i.e. the sum scaled by `1 / B`. -/
def batch_loss (S B : Nat) (rewards probs : Nat → Nat → Dual) : Dual :=
  Dual.scale (1 / (B : ℚ)) (Dual.sumRange (fun j => total_loss S rewards probs j) B)

/-- Lines 175-192: the surrogate loss built from the (already
baseline-adjusted) reward matrix and the (already normalized, when
`normalize` is set) probability matrix, plus the cross-entropy smoothing
term `ce_smoothing * decoder.cost` added when `ce_smoothing > 0`. -/
def rl_loss (S B : Nat) (ce : ℚ) (cost : Dual)
    (rewards probs : Nat → Nat → Dual) : Dual :=
  if 0 < ce then (batch_loss S B rewards probs).add (cost.scale ce)
  else batch_loss S B rewards probs

/-- Lines 149-164: the reward matrix actually fed into the surrogate loss.
When `subtract_baseline` is set, both accumulators are first incremented
(by `batch_size * sample_size` and by this step's total reward) and the
resulting running-mean baseline is subtracted from every entry; otherwise
the stacked rewards pass through unchanged. -/
def reinforce_rewards (cfg : RLConfig) (st : RLState) (B : Nat)
    (rewards : Nat → Nat → Dual) : Nat → Nat → Dual :=
  fun i j =>
    if cfg.subtract_baseline then
      (rewards i j).sub (Dual.const (rl_baseline (rl_state_step st B
        cfg.sample_size (rewards_total cfg.sample_size B rewards))))
    else rewards i j

/-- Lines 170-173: the probability matrix actually fed into the surrogate
loss.  When `normalize` is set this is
`tf.nn.softmax(samples_logprobs_stacked * alpha, dim=0)` (`softmax0` is
the tf.nn.softmax kernel over the sample dimension, kept abstract);
otherwise the raw stacked log-probabilities. -/
def reinforce_probs (cfg : RLConfig)
    (softmax0 : (Nat → Nat → Dual) → Nat → Nat → Dual)
    (logprobs : Nat → Nat → Dual) : Nat → Nat → Dual :=
  if cfg.normalize then softmax0 (fun i j => (logprobs i j).scale cfg.alpha)
  else logprobs

/-- The whole loss graph of `ReinforceObjective.loss` after the sampling
loop (lines 146-192): starting from the stacked reward and log-probability
matrices, optionally subtract the running-mean baseline (updating the two
accumulators), optionally softmax-normalize `alpha`-scaled log-probs over
the sample dimension, and combine into the scalar batch loss. -/
def reinforce_loss (cfg : RLConfig) (st : RLState) (B : Nat)
    (softmax0 : (Nat → Nat → Dual) → Nat → Nat → Dual)
    (cost : Dual) (rewards logprobs : Nat → Nat → Dual) : Dual :=
  rl_loss cfg.sample_size B cfg.ce_smoothing cost
    (reinforce_rewards cfg st B rewards)
    (reinforce_probs cfg softmax0 logprobs)

/-- The accumulator state left behind by one step of `reinforce_loss`:
unchanged unless `subtract_baseline` is set. -/
def reinforce_next_state (cfg : RLConfig) (st : RLState) (B : Nat)
    (rewards : Nat → Nat → Dual) : RLState :=
  if cfg.subtract_baseline then
    rl_state_step st B cfg.sample_size (rewards_total cfg.sample_size B rewards)
  else st

theorem rl_loss_val (S B : Nat) (ce : ℚ) (cost : Dual)
    (rewards probs : Nat → Nat → Dual) :
    (rl_loss S B ce cost rewards probs).val =
      (∑ j in Finset.range B, ∑ i in Finset.range S,
        -((rewards i j).val) * (probs i j).val) / B +
      (if 0 < ce then ce * cost.val else 0) := by
  unfold rl_loss batch_loss total_loss scored_probs
  by_cases h : 0 < ce <;>
    simp [h, Dual.sumRange_val, one_div, inv_mul_eq_div, div_add_div_same]
  · ring_nf
  · ring_nf

theorem rl_loss_grad (S B : Nat) (ce : ℚ) (cost : Dual)
    (rewards probs : Nat → Nat → Dual) :
    (rl_loss S B ce cost rewards probs).grad =
      (∑ j in Finset.range B, ∑ i in Finset.range S,
        -((rewards i j).val) * (probs i j).grad) / B +
      (if 0 < ce then ce * cost.grad else 0) := by
  unfold rl_loss batch_loss total_loss scored_probs
  by_cases h : 0 < ce <;>
    simp [h, Dual.sumRange_grad, one_div, inv_mul_eq_div]
  · ring_nf
  · ring_nf

theorem Dual.eq_of (x y : Dual) (h1 : x.val = y.val) (h2 : x.grad = y.grad) :
    x = y := by
  cases x; cases y; simp_all

/-- C1: for every configuration of ReinforceObjective, the training loss is
the elementwise product of the negated (possibly baseline-adjusted) reward
— a constant for gradient purposes, so the loss value and its derivative
mention only reward values, never reward derivatives — with the
log-probability (or normalized probability), summed across the sample
dimension and averaged across the batch; when `ce_smoothing > 0` the term
`ce_smoothing * decoder.cost` is added; and with `sample_size = 1`,
`normalize = False`, `ce_smoothing = 0` (and no baseline) the loss value is
the batch mean of `-reward * logprob`. -/
theorem reinforce_loss_policy_gradient
    (cfg : RLConfig) (st : RLState) (B : Nat)
    (softmax0 : (Nat → Nat → Dual) → Nat → Nat → Dual)
    (cost : Dual) (rewards logprobs : Nat → Nat → Dual) :
    ((reinforce_loss cfg st B softmax0 cost rewards logprobs).val
      = (∑ j in Finset.range B, ∑ i in Finset.range cfg.sample_size,
          -((reinforce_rewards cfg st B rewards i j).val)
            * (reinforce_probs cfg softmax0 logprobs i j).val) / B
        + (if 0 < cfg.ce_smoothing then cfg.ce_smoothing * cost.val else 0))
    ∧ ((reinforce_loss cfg st B softmax0 cost rewards logprobs).grad
      = (∑ j in Finset.range B, ∑ i in Finset.range cfg.sample_size,
          -((reinforce_rewards cfg st B rewards i j).val)
            * (reinforce_probs cfg softmax0 logprobs i j).grad) / B
        + (if 0 < cfg.ce_smoothing then cfg.ce_smoothing * cost.grad else 0))
    ∧ (∀ rewards2 : Nat → Nat → Dual,
        (∀ i j, (rewards2 i j).val = (rewards i j).val) →
        reinforce_loss cfg st B softmax0 cost rewards2 logprobs
          = reinforce_loss cfg st B softmax0 cost rewards logprobs)
    ∧ (cfg.sample_size = 1 → cfg.normalize = false → cfg.ce_smoothing = 0 →
        cfg.subtract_baseline = false →
        (reinforce_loss cfg st B softmax0 cost rewards logprobs).val
          = (∑ j in Finset.range B,
              -((rewards 0 j).val) * (logprobs 0 j).val) / B) := by
  refine ⟨?_, ?_, ?_, ?_⟩
  · unfold reinforce_loss
    exact rl_loss_val _ _ _ _ _ _
  · unfold reinforce_loss
    exact rl_loss_grad _ _ _ _ _ _
  · intro rewards2 h
    have hval : ∀ i j, (reinforce_rewards cfg st B rewards2 i j).val
        = (reinforce_rewards cfg st B rewards i j).val := by
      intro i j
      unfold reinforce_rewards rewards_total
      by_cases hb : cfg.subtract_baseline <;> simp [hb, h]
    unfold reinforce_loss
    refine Dual.eq_of _ _ ?_ ?_
    · rw [rl_loss_val, rl_loss_val]
      simp only [hval]
    · rw [rl_loss_grad, rl_loss_grad]
      simp only [hval]
  · intro hS hnorm hce hsub
    unfold reinforce_loss
    rw [rl_loss_val]
    simp [reinforce_rewards, reinforce_probs, hS, hnorm, hce, hsub,
      Finset.sum_range_one]

theorem reinforce_loss_policy_gradient_witness :
    (reinforce_loss ⟨false, false, 1, 0, 1, 1⟩ ⟨0, 0⟩ 2 (fun m => m) ⟨0, 0⟩
        (fun _ _ => ⟨2, 5⟩) (fun _ _ => ⟨3, 7⟩)).val
      = (∑ j in Finset.range 2, -((2 : ℚ)) * 3) / 2 := by
  have h := (reinforce_loss_policy_gradient ⟨false, false, 1, 0, 1, 1⟩ ⟨0, 0⟩ 2
    (fun m => m) ⟨0, 0⟩ (fun _ _ => ⟨2, 5⟩) (fun _ _ => ⟨3, 7⟩)).2.2.2
    rfl rfl rfl rfl
  simpa using h

/-- Runs `n` consecutive training steps in which every entry of the
(sample_size, batch) reward matrix equals the constant `c`, starting from
freshly initialized accumulators (both variables start at 0.0). -/
def rl_run_const (B S : Nat) (c : ℚ) : Nat → RLState
  | 0 => ⟨0, 0⟩
  | n + 1 => rl_state_step (rl_run_const B S c n) B S
      (rewards_total S B (fun _ _ => Dual.const c))

theorem rewards_total_const (S B : Nat) (c : ℚ) :
    rewards_total S B (fun _ _ => Dual.const c) = (S : ℚ) * (B : ℚ) * c := by
  simp [rewards_total, Finset.sum_const, Finset.card_range, mul_assoc]

theorem rl_run_const_state (B S : Nat) (c : ℚ) (n : Nat) :
    rl_run_const B S c n =
      ⟨(n : ℚ) * ((S : ℚ) * (B : ℚ)) * c, (n : ℚ) * ((B : ℚ) * (S : ℚ))⟩ := by
  induction n with
  | zero => simp [rl_run_const]
  | succ n ih =>
      simp only [rl_run_const, ih, rl_state_step, rewards_total_const,
        RLState.mk.injEq]
      constructor <;> push_cast <;> ring

theorem rl_baseline_run_const (B S n : Nat) (c : ℚ)
    (hB : 1 ≤ B) (hS : 1 ≤ S) (hn : 1 ≤ n) :
    rl_baseline (rl_run_const B S c n) = c := by
  have hB' : (1 : ℚ) ≤ (B : ℚ) := by exact_mod_cast hB
  have hS' : (1 : ℚ) ≤ (S : ℚ) := by exact_mod_cast hS
  have hn' : (1 : ℚ) ≤ (n : ℚ) := by exact_mod_cast hn
  have hBS : (1 : ℚ) ≤ (B : ℚ) * (S : ℚ) := by nlinarith
  have hpos : (1 : ℚ) ≤ (n : ℚ) * ((B : ℚ) * (S : ℚ)) := by nlinarith
  have hne : (n : ℚ) * ((B : ℚ) * (S : ℚ)) ≠ 0 :=
    (lt_of_lt_of_le zero_lt_one hpos).ne'
  rw [rl_run_const_state, rl_baseline]
  show (n : ℚ) * ((S : ℚ) * (B : ℚ)) * c / max ((n : ℚ) * ((B : ℚ) * (S : ℚ))) 1 = c
  rw [max_eq_left hpos, div_eq_iff hne]
  ring

/-- C2: with `subtract_baseline`, the two persistent accumulators grow by
this step's total reward and by `batch_size * sample_size` per step (so
after `n` constant-`c` steps they hold `n*S*B*c` and `n*B*S`); the
subtracted baseline is `reward_sum / max(reward_counter, 1)`, which equals
`c` after every `n ≥ 1` constant-`c` steps — in particular after step 2 —
and therefore every entry of the adjusted reward array is exactly 0 at
every such step (so it tends to 0 as the step count grows). -/
theorem reinforce_baseline_running_mean (B S : Nat) (c : ℚ)
    (hB : 1 ≤ B) (hS : 1 ≤ S) :
    (∀ n, rl_run_const B S c n
        = ⟨(n : ℚ) * ((S : ℚ) * (B : ℚ)) * c, (n : ℚ) * ((B : ℚ) * (S : ℚ))⟩)
    ∧ (∀ n, 1 ≤ n → rl_baseline (rl_run_const B S c n) = c)
    ∧ rl_baseline (rl_run_const B S c 2) = c
    ∧ (∀ (n : Nat) (nrm : Bool) (T ce a : ℚ) (i j : Nat),
        (reinforce_rewards ⟨true, nrm, T, ce, a, S⟩ (rl_run_const B S c n) B
            (fun _ _ => Dual.const c) i j).val = 0) := by
  refine ⟨fun n => rl_run_const_state B S c n,
    fun n hn => rl_baseline_run_const B S n c hB hS hn,
    rl_baseline_run_const B S 2 c hB hS (by norm_num), ?_⟩
  intro n nrm T ce a i j
  have hstep : rl_state_step (rl_run_const B S c n) B S
      (rewards_total S B (fun _ _ => Dual.const c))
        = rl_run_const B S c (n + 1) := by
    simp [rl_run_const]
  simp only [reinforce_rewards, if_pos, hstep]
  rw [rl_baseline_run_const B S (n + 1) c hB hS (by omega)]
  simp

theorem reinforce_baseline_running_mean_witness :
    rl_baseline (rl_run_const 2 1 3 2) = 3 :=
  (reinforce_baseline_running_mean 2 1 3 (by norm_num) (by norm_num)).2.2.1

/-!
Lines 134-140 of rl_trainer.py: the per-token cross-entropy array
`tf.nn.sparse_softmax_cross_entropy_with_logits(labels=sample_decoded,
logits=sample_logits)` is an external kernel; its (time, batch) result is
the abstract input `xent` below.
-/

/-- Line 135-136: `word_logprobs = -sparse_softmax_cross_entropy(...)`,
the negated token-level cross-entropy at position `t` of batch element
`j`. -/
def word_logprobs (xent : Nat → Nat → ℚ) (t j : Nat) : ℚ := -(xent t j)

/-- Line 140: `sent_logprobs = tf.reduce_sum(word_logprobs, axis=0)` —
the sum over all `T` time positions, with no length masking. -/
def sent_logprobs (T : Nat) (xent : Nat → Nat → ℚ) (j : Nat) : ℚ :=
  ∑ t in Finset.range T, word_logprobs xent t j

/-- Pointwise update of the cross-entropy array at one (time, batch)
position: used to show that late positions still influence the sum. -/
def update_xent (xent : Nat → Nat → ℚ) (t0 j0 : Nat) (v : ℚ) :
    Nat → Nat → ℚ :=
  fun t j => if t = t0 ∧ j = j0 then v else xent t j

/-- C6: the sequence log-probability is the sum over all token positions
of the negated token-level cross-entropy, with no masking by sequence
length: it splits into the positions before a sample's length `L` plus the
positions from `L` to `T`, and changing the cross-entropy at any position
`t0 ≥ L` (past the end of a shorter sampled sequence) still changes the
sum by the corresponding amount. -/
theorem rl_sent_logprobs_unmasked (T : Nat) (xent : Nat → Nat → ℚ)
    (j L t0 : Nat) (v : ℚ) (hL : L ≤ t0) (ht : t0 < T) :
    (sent_logprobs T xent j
      = (∑ t in Finset.range L, word_logprobs xent t j)
        + ∑ t in Finset.Ico L T, word_logprobs xent t j)
    ∧ sent_logprobs T (update_xent xent t0 j v) j
        = sent_logprobs T xent j + (xent t0 j - v) := by
  constructor
  · rw [sent_logprobs, Finset.range_eq_Ico,
      ← Finset.sum_Ico_consecutive _ (Nat.zero_le L)
        (le_trans hL (le_of_lt ht)), ← Finset.range_eq_Ico]
  · have hsplit : ∀ t, word_logprobs (update_xent xent t0 j v) t j
        = word_logprobs xent t j + (if t = t0 then xent t0 j - v else 0) := by
      intro t
      by_cases h : t = t0
      · subst h
        simp [word_logprobs, update_xent]
        ring
      · simp [word_logprobs, update_xent, h]
    unfold sent_logprobs
    rw [Finset.sum_congr rfl (fun t _ => hsplit t), Finset.sum_add_distrib,
      Finset.sum_ite_eq' (Finset.range T) t0 (fun _ => xent t0 j - v)]
    simp [Finset.mem_range.mpr ht]

theorem rl_sent_logprobs_unmasked_witness :
    sent_logprobs 3 (update_xent (fun t j => (t : ℚ) + (j : ℚ)) 2 0 10) 0
      = sent_logprobs 3 (fun t j => (t : ℚ) + (j : ℚ)) 0
        + (((2 : Nat) : ℚ) + ((0 : Nat) : ℚ) - 10) :=
  (rl_sent_logprobs_unmasked 3 (fun t j => (t : ℚ) + (j : ℚ)) 0 1 2 10
    (by norm_num) (by norm_num)).2

/-!
## RecurrentEncoder construction (encoders/recurrent.py)

`_make_rnn_spec` (lines 37-52) and the validation part of
`RecurrentEncoder.__init__` (lines 63-86).  A raised ValueError is an
`Except.error` carrying the message.  Python renders `str(RNN_DIRECTIONS)`
and `str(RNN_CELL_TYPES)` with quotation marks around the names (and, for
the cell-type dict, the class objects as values); `pyListStr` renders the
same sequence of names, which is what the messages pivot on.
-/

/-- Keys of `RNN_CELL_TYPES` (lines 17-21): NematusGRU ↦ NematusGRUCell,
GRU ↦ OrthoGRUCell, LSTM ↦ tf.nn.rnn_cell.LSTMCell. -/
def RNN_CELL_TYPES : List String := ["NematusGRU", "GRU", "LSTM"]

/-- Embeds `RNN_DIRECTIONS` (line 23). -/
def RNN_DIRECTIONS : List String := ["forward", "backward", "both"]

/-- Rendering of a list of names used inside the error messages. -/
def pyListStr (xs : List String) : String :=
  "[" ++ String.intercalate ", " xs ++ "]"

/-- Embeds the `RNNSpec` named tuple (lines 29-31). -/
structure RNNSpec where
  size : Int
  direction : String
  cell_type : String
deriving DecidableEq, Repr

/-- Embeds `_make_rnn_spec` (lines 37-52): validates size, direction and cell
type in that order, raising a ValueError naming the offending field. -/
def make_rnn_spec (size : Int) (direction : String := "both")
    (cell_type : String := "GRU") : Except String RNNSpec :=
  if size ≤ 0 then
    .error ("RNN size must be a positive integer. " ++ toString size
      ++ " given.")
  else if direction ∉ RNN_DIRECTIONS then
    .error ("RNN direction must be one of " ++ pyListStr RNN_DIRECTIONS
      ++ ". " ++ direction ++ " given.")
  else if cell_type ∉ RNN_CELL_TYPES then
    .error ("RNN cell type must be one of " ++ pyListStr RNN_CELL_TYPES
      ++ ". " ++ cell_type ++ " given.")
  else .ok ⟨size, direction, cell_type⟩

/-- The validated state a fully constructed `RecurrentEncoder` holds. -/
structure RecurrentEncoderModel where
  rnn_spec : RNNSpec
  dropout_keep_prob : ℚ
deriving DecidableEq, Repr

/-- Embeds `RecurrentEncoder.__init__` (lines 63-86): builds the RNN spec via
`_make_rnn_spec(rnn_size, rnn_direction, rnn_cell)` and then checks
`dropout_keep_prob` lies in (0, 1]; any raised ValueError aborts the
construction. -/
def recurrentEncoder_init (rnn_size : Int) (rnn_cell : String := "GRU")
    (rnn_direction : String := "both") (dropout_keep_prob : ℚ := 1) :
    Except String RecurrentEncoderModel :=
  match make_rnn_spec rnn_size rnn_direction rnn_cell with
  | .error e => .error e
  | .ok spec =>
    if dropout_keep_prob ≤ 0 ∨ dropout_keep_prob > 1 then
      .error "Dropout keep prob must be inside (0,1]."
    else .ok ⟨spec, dropout_keep_prob⟩

/-- C3: `RecurrentEncoder` construction succeeds exactly when the RNN
size is positive, the direction and cell type belong to their enumerated
sets and the dropout keep-probability lies in (0, 1]; on success the
validated fields are stored unchanged, and each violation aborts with the
ValueError message naming the offending field (earlier checks shadowing
later ones). -/
theorem recurrent_encoder_construction_validation
    (size : Int) (cell direction : String) (dk : ℚ) :
    ((∃ m, recurrentEncoder_init size cell direction dk = .ok m)
      ↔ (0 < size ∧ direction ∈ RNN_DIRECTIONS ∧ cell ∈ RNN_CELL_TYPES
          ∧ 0 < dk ∧ dk ≤ 1))
    ∧ (0 < size → direction ∈ RNN_DIRECTIONS → cell ∈ RNN_CELL_TYPES →
        0 < dk → dk ≤ 1 →
        recurrentEncoder_init size cell direction dk
          = .ok ⟨⟨size, direction, cell⟩, dk⟩)
    ∧ (size ≤ 0 →
        recurrentEncoder_init size cell direction dk
          = .error ("RNN size must be a positive integer. " ++ toString size
              ++ " given."))
    ∧ (0 < size → direction ∉ RNN_DIRECTIONS →
        recurrentEncoder_init size cell direction dk
          = .error ("RNN direction must be one of "
              ++ pyListStr RNN_DIRECTIONS ++ ". " ++ direction ++ " given."))
    ∧ (0 < size → direction ∈ RNN_DIRECTIONS → cell ∉ RNN_CELL_TYPES →
        recurrentEncoder_init size cell direction dk
          = .error ("RNN cell type must be one of "
              ++ pyListStr RNN_CELL_TYPES ++ ". " ++ cell ++ " given."))
    ∧ (0 < size → direction ∈ RNN_DIRECTIONS → cell ∈ RNN_CELL_TYPES →
        ¬(0 < dk ∧ dk ≤ 1) →
        recurrentEncoder_init size cell direction dk
          = .error "Dropout keep prob must be inside (0,1].") := by
  have hspec_ok : 0 < size → direction ∈ RNN_DIRECTIONS →
      cell ∈ RNN_CELL_TYPES →
      make_rnn_spec size direction cell = .ok ⟨size, direction, cell⟩ := by
    intro hs hd hc
    unfold make_rnn_spec
    rw [if_neg (by omega), if_neg (by simp [hd]), if_neg (by simp [hc])]
  have herr1 : size ≤ 0 → recurrentEncoder_init size cell direction dk
      = .error ("RNN size must be a positive integer. " ++ toString size
          ++ " given.") := by
    intro hs
    unfold recurrentEncoder_init make_rnn_spec
    rw [if_pos hs]
  have herr2 : 0 < size → direction ∉ RNN_DIRECTIONS →
      recurrentEncoder_init size cell direction dk
        = .error ("RNN direction must be one of "
            ++ pyListStr RNN_DIRECTIONS ++ ". " ++ direction ++ " given.") := by
    intro hs hd
    unfold recurrentEncoder_init make_rnn_spec
    rw [if_neg (by omega), if_pos hd]
  have herr3 : 0 < size → direction ∈ RNN_DIRECTIONS →
      cell ∉ RNN_CELL_TYPES →
      recurrentEncoder_init size cell direction dk
        = .error ("RNN cell type must be one of "
            ++ pyListStr RNN_CELL_TYPES ++ ". " ++ cell ++ " given.") := by
    intro hs hd hc
    unfold recurrentEncoder_init make_rnn_spec
    rw [if_neg (by omega), if_neg (by simp [hd]), if_pos hc]
  have herr4 : 0 < size → direction ∈ RNN_DIRECTIONS →
      cell ∈ RNN_CELL_TYPES → ¬(0 < dk ∧ dk ≤ 1) →
      recurrentEncoder_init size cell direction dk
        = .error "Dropout keep prob must be inside (0,1]." := by
    intro hs hd hc hdk
    unfold recurrentEncoder_init
    rw [hspec_ok hs hd hc]
    have : dk ≤ 0 ∨ dk > 1 := by
      by_contra hcon
      push_neg at hcon
      exact hdk ⟨hcon.1, hcon.2⟩
    simp only [if_pos this]
  have hsucc : 0 < size → direction ∈ RNN_DIRECTIONS →
      cell ∈ RNN_CELL_TYPES → 0 < dk → dk ≤ 1 →
      recurrentEncoder_init size cell direction dk
        = .ok ⟨⟨size, direction, cell⟩, dk⟩ := by
    intro hs hd hc h0 h1'
    unfold recurrentEncoder_init
    rw [hspec_ok hs hd hc]
    have : ¬(dk ≤ 0 ∨ dk > 1) := by
      push_neg
      exact ⟨h0, h1'⟩
    simp only [if_neg this]
  refine ⟨⟨?_, ?_⟩, hsucc, herr1, herr2, herr3, herr4⟩
  · rintro ⟨m, hm⟩
    by_cases hs : 0 < size
    · by_cases hd : direction ∈ RNN_DIRECTIONS
      · by_cases hc : cell ∈ RNN_CELL_TYPES
        · by_cases hdk : 0 < dk ∧ dk ≤ 1
          · exact ⟨hs, hd, hc, hdk.1, hdk.2⟩
          · rw [herr4 hs hd hc hdk] at hm
            exact absurd hm (by simp)
        · rw [herr3 hs hd hc] at hm
          exact absurd hm (by simp)
      · rw [herr2 hs hd] at hm
        exact absurd hm (by simp)
    · rw [herr1 (by omega)] at hm
      exact absurd hm (by simp)
  · rintro ⟨hs, hd, hc, h0, h1'⟩
    exact ⟨_, hsucc hs hd hc h0 h1'⟩

theorem recurrent_encoder_construction_validation_witness :
    recurrentEncoder_init 1 "GRU" "forward" 1
      = .ok ⟨⟨1, "forward", "GRU"⟩, 1⟩ :=
  (recurrent_encoder_construction_validation 1 "GRU" "forward" 1).2.1
    (by norm_num) (by decide) (by decide) (by norm_num) (by norm_num)

/-!
## SequenceRegressor (decoders/sequence_regressor.py)

Each encoder's `encoded` summary is a (batch, dim) matrix, embedded as a
list of per-example row vectors over ℚ.  The constructor's graph
(lines 51-67): `mlp_input` is first built as the axis-1 concatenation of
all encoder summaries and immediately overwritten by the elementwise
difference of encoders 0 and 1; the MLP and final 1-unit linear layer then
produce one scalar per example, and the training cost is the summed
squared error against the ground-truth scalars.
-/

/-- Dot product (truncating at the shorter list, as the framework's
matched shapes make the lists equal in length anyway). -/
def dotQ (w v : List ℚ) : ℚ := (List.zipWith (· * ·) w v).sum

/-- Elementwise vector addition. -/
def vaddQ (a b : List ℚ) : List ℚ := List.zipWith (· + ·) a b

/-- Elementwise vector subtraction (tf.subtract on one batch row). -/
def vsubQ (a b : List ℚ) : List ℚ := List.zipWith (· - ·) a b

/-- Matrix-vector product: one linear layer's weight application. -/
def matVecQ (W : List (List ℚ)) (v : List ℚ) : List ℚ :=
  W.map (fun row => dotQ row v)

/-- One hidden layer of the perceptron: weights, bias. -/
structure MLPLayer where
  weights : List (List ℚ)
  bias : List ℚ
deriving DecidableEq, Repr

/-- Modelled from the spec: `multilayer_projection` (neuralmonkey.nn.
projection, not part of the excerpt) — "a configurable multilayer
perceptron (hidden layer sizes given as an ordered list; nonlinearity and
dropout configurable)": each hidden layer applies an affine map followed
by the configurable activation `act` (dropout, a per-invocation identity
at keep-probability 1 or at inference, is omitted). -/
def mlpHidden (act : ℚ → ℚ) (hidden : List MLPLayer) (x : List ℚ) : List ℚ :=
  hidden.foldl (fun v layer => (vaddQ (matVecQ layer.weights v) layer.bias).map act) x

/-- Modelled from the spec: `linear` (neuralmonkey.nn.projection, not part
of the excerpt) — "linearly project to a single scalar per example": a
1-unit affine output layer with weights `w` and bias `b`. -/
def linearQ (w : List ℚ) (b : ℚ) (v : List ℚ) : ℚ := dotQ w v + b

/-- Line 51 (dead store): `mlp_input = tf.concat([enc.encoded for enc in
encoders], 1)` — axis-1 concatenation of all encoder summaries, row by
row. -/
def mlp_input_concat (encodeds : List (List (List ℚ))) : List (List ℚ) :=
  (List.range (encodeds.headD []).length).map
    (fun i => (encodeds.map (fun m => m.getD i [])).flatten)

/-- Line 52 (the value actually used): `mlp_input =
tf.subtract(encoders[0].encoded, encoders[1].encoded)` — the rowwise
elementwise difference of the first two encoder summaries. -/
def mlp_input (encodeds : List (List (List ℚ))) : List (List ℚ) :=
  List.zipWith vsubQ (encodeds.getD 0 []) (encodeds.getD 1 [])

/-- Lines 54-65: the predicted scalar per example — the MLP applied to
each row of `mlp_input`, then the 1-unit linear projection. -/
def seqreg_predicted (act : ℚ → ℚ) (hidden : List MLPLayer)
    (outW : List ℚ) (outB : ℚ) (encodeds : List (List (List ℚ))) : List ℚ :=
  (mlp_input encodeds).map (fun row => linearQ outW outB (mlpHidden act hidden row))

/-- Line 67: `cost = tf.reduce_sum(tf.square(mlp_logits -
tf.expand_dims(gt_inputs, 1)))` — the summed squared error between the
predicted scalars and the ground-truth targets. -/
def seqreg_cost (act : ℚ → ℚ) (hidden : List MLPLayer)
    (outW : List ℚ) (outB : ℚ) (encodeds : List (List (List ℚ)))
    (targets : List ℚ) : ℚ :=
  (List.zipWith (fun p t => (p - t) ^ 2)
    (seqreg_predicted act hidden outW outB encodeds) targets).sum

theorem list_getD_take_two {α : Type} (xs ys : List α) (d : α)
    (h : xs.take 2 = ys.take 2) :
    xs.getD 0 d = ys.getD 0 d ∧ xs.getD 1 d = ys.getD 1 d := by
  match xs, ys with
  | [], [] => exact ⟨rfl, rfl⟩
  | [], _ :: _ => simp at h
  | _ :: _, [] => simp at h
  | [a], [b] => simp_all [List.take]
  | [a], b :: b' :: ys => simp_all [List.take]
  | a :: a' :: xs, [b] => simp_all [List.take]
  | a :: a' :: xs, b :: b' :: ys => simp_all [List.take, List.getD]

/-- C4: the input actually fed to the perceptron is the rowwise
elementwise difference of the first two encoders' summaries (the
concatenation of all encoder outputs computed first is overwritten), so
two encoder lists agreeing on their first two entries yield the same MLP
input, the same predicted scalars and the same training loss — encoders
beyond the first two have no effect. -/
theorem sequence_regressor_ignores_extra_encoders
    (act : ℚ → ℚ) (hidden : List MLPLayer) (outW : List ℚ) (outB : ℚ)
    (encodeds encodeds2 : List (List (List ℚ))) (targets : List ℚ)
    (h : encodeds.take 2 = encodeds2.take 2) :
    mlp_input encodeds
      = List.zipWith vsubQ (encodeds.getD 0 []) (encodeds.getD 1 [])
    ∧ mlp_input encodeds = mlp_input encodeds2
    ∧ seqreg_predicted act hidden outW outB encodeds
        = seqreg_predicted act hidden outW outB encodeds2
    ∧ seqreg_cost act hidden outW outB encodeds targets
        = seqreg_cost act hidden outW outB encodeds2 targets := by
  obtain ⟨h0, h1⟩ := list_getD_take_two encodeds encodeds2 [] h
  have hin : mlp_input encodeds = mlp_input encodeds2 := by
    rw [mlp_input, mlp_input, h0, h1]
  have hpred : seqreg_predicted act hidden outW outB encodeds
      = seqreg_predicted act hidden outW outB encodeds2 := by
    rw [seqreg_predicted, seqreg_predicted, hin]
  refine ⟨rfl, hin, hpred, ?_⟩
  rw [seqreg_cost, seqreg_cost, hpred]

theorem sequence_regressor_ignores_extra_encoders_witness :
    seqreg_cost (fun x => x) [] [2] 1 [[[5, 7]], [[1, 3]], [[9, 9]]] [3]
      = seqreg_cost (fun x => x) [] [2] 1 [[[5, 7]], [[1, 3]]] [3] :=
  (sequence_regressor_ignores_extra_encoders (fun x => x) [] [2] 1
    [[[5, 7]], [[1, 3]], [[9, 9]]] [[[5, 7]], [[1, 3]]] [3] (by rfl)).2.2.2

@[simp] theorem dotQ_cons (a b : ℚ) (w v : List ℚ) :
    dotQ (a :: w) (b :: v) = a * b + dotQ w v := by
  simp [dotQ, List.zipWith]

theorem dotQ_right_zero (w v : List ℚ) (h : ∀ x ∈ v, x = 0) :
    dotQ w v = 0 := by
  induction w generalizing v with
  | nil => simp [dotQ]
  | cons a w ih =>
    cases v with
    | nil => simp [dotQ]
    | cons b v =>
      have hb : b = 0 := h b (by simp)
      have hv : ∀ x ∈ v, x = 0 := fun x hx => h x (by simp [hx])
      rw [dotQ_cons, hb, ih v hv]
      ring

theorem zipWith_zero_mem (f : ℚ → ℚ → ℚ) (hf : f 0 0 = 0) (u v : List ℚ)
    (hu : ∀ a ∈ u, a = 0) (hv : ∀ a ∈ v, a = 0) :
    ∀ a ∈ List.zipWith f u v, a = 0 := by
  induction u generalizing v with
  | nil => simp
  | cons a u ih =>
    cases v with
    | nil => simp
    | cons b v =>
      intro c hc
      simp only [List.zipWith] at hc
      rcases List.mem_cons.mp hc with hc | hc
      · rw [hc, hu a (by simp), hv b (by simp), hf]
      · exact ih v (fun x hx => hu x (by simp [hx]))
          (fun x hx => hv x (by simp [hx])) c hc

theorem mlpHidden_zero (act : ℚ → ℚ) (hidden : List MLPLayer)
    (x : List ℚ) (hact : act 0 = 0)
    (hb : ∀ l ∈ hidden, ∀ b ∈ l.bias, b = 0) (hx : ∀ a ∈ x, a = 0) :
    ∀ a ∈ mlpHidden act hidden x, a = 0 := by
  induction hidden generalizing x with
  | nil => simpa [mlpHidden] using hx
  | cons l hs ih =>
    have hstep : ∀ a ∈ (vaddQ (matVecQ l.weights x) l.bias).map act, a = 0 := by
      intro a ha
      obtain ⟨y, hy, rfl⟩ := List.mem_map.mp ha
      have hy0 : y = 0 := by
        refine zipWith_zero_mem _ (by ring) _ _ ?_ (hb l (by simp)) y hy
        intro z hz
        obtain ⟨row, _, rfl⟩ := List.mem_map.mp hz
        exact dotQ_right_zero row x hx
      rw [hy0, hact]
    have : mlpHidden act (l :: hs) x
        = mlpHidden act hs ((vaddQ (matVecQ l.weights x) l.bias).map act) := by
      simp [mlpHidden]
    rw [this]
    exact ih _ (fun m hm => hb m (by simp [hm])) hstep

/-- C5 counterexample: the claim as stated is false for a general
`SequenceRegressor`.  Batch of one example, target 0, both encoders
producing the identical summary vector [5] (so the MLP input is the zero
vector), no hidden layers, output weights [0] — but output bias 1: the
predicted scalar is 1 and the training loss is 1, not 0. -/
theorem sequence_regressor_zero_batch_counterexample :
    seqreg_cost (fun x => x) [] [0] 1 [[[5]], [[5]]] [0] ≠ 0 := by
  norm_num [seqreg_cost, seqreg_predicted, mlp_input, vsubQ, mlpHidden,
    linearQ, dotQ, List.zipWith]

/-- C5 amended: a batch whose targets are all 0 and whose two encoders
produce identical summary vectors on every example (so the MLP input is
the zero vector) yields a training loss of 0, provided every perceptron
bias is zero and the activation maps 0 to 0 — as holds for the standard
zero-initialized biases with the default tanh activation. -/
theorem sequence_regressor_zero_batch_amended
    (act : ℚ → ℚ) (hidden : List MLPLayer) (outW : List ℚ)
    (encodeds : List (List (List ℚ))) (targets : List ℚ)
    (hact : act 0 = 0)
    (hbias : ∀ l ∈ hidden, ∀ b ∈ l.bias, b = 0)
    (henc : encodeds.getD 0 [] = encodeds.getD 1 [])
    (htgt : ∀ t ∈ targets, t = 0) :
    seqreg_cost act hidden outW 0 encodeds targets = 0 := by
  have hzero_rows : ∀ row ∈ mlp_input encodeds, ∀ a ∈ row, a = 0 := by
    intro row hrow
    rw [mlp_input, henc, List.zipWith_same] at hrow
    obtain ⟨r, _, rfl⟩ := List.mem_map.mp hrow
    intro a ha
    rw [vsubQ, List.zipWith_same] at ha
    obtain ⟨z, _, rfl⟩ := List.mem_map.mp ha
    ring
  have hpred : ∀ p ∈ seqreg_predicted act hidden outW 0 encodeds, p = 0 := by
    intro p hp
    obtain ⟨row, hrow, rfl⟩ := List.mem_map.mp hp
    rw [linearQ, dotQ_right_zero _ _
      (mlpHidden_zero act hidden row hact hbias (hzero_rows row hrow)),
      add_zero]
  rw [seqreg_cost]
  refine List.sum_eq_zero ?_
  exact zipWith_zero_mem _ (by ring) _ _ hpred htgt

theorem sequence_regressor_zero_batch_amended_witness :
    seqreg_cost (fun x => x) [⟨[[2]], [0]⟩] [3] 0
      [[[1], [2]], [[1], [2]]] [0, 0] = 0 :=
  sequence_regressor_zero_batch_amended (fun x => x) [⟨[[2]], [0]⟩] [3]
    [[[1], [2]], [[1], [2]]] [0, 0] rfl (by decide) rfl (by decide)

/-!
## Numpy readers (readers/numpy_reader.py)

A loaded numpy array is embedded as its shape plus flat data; stacking
along axis 0 is embedded by representing a 2-level array as a list of
rows.  File I/O is an external effect: the readers are modelled on the
already-loaded contents of the named files, in order.
-/

/-- Embeds `single_tensor` (lines 8-14) on the loaded contents of the given
files: one file's array is returned unchanged; several are concatenated
along axis 0 (`np.concatenate(..., axis=0)` = appending the row lists). -/
def single_tensor (arrs : List (List (List ℚ))) : List (List ℚ) :=
  if arrs.length = 1 then arrs.headD [] else arrs.flatten

/-- C8: `single_tensor` of exactly one loaded array is that array
unchanged; of `N > 1` arrays whose rows all share one width (the
numpy concatenation-compatibility condition) it is their concatenation
along axis 0, whose leading dimension is the sum of the inputs' leading
dimensions. -/
theorem single_tensor_concat (a : List (List ℚ))
    (arrs : List (List (List ℚ))) (w : Nat)
    (hlen : 1 < arrs.length)
    (hcompat : ∀ m ∈ arrs, ∀ row ∈ m, row.length = w) :
    single_tensor [a] = a
    ∧ single_tensor arrs = arrs.flatten
    ∧ (single_tensor arrs).length = (arrs.map List.length).sum := by
  have hne : arrs.length ≠ 1 := by omega
  refine ⟨rfl, ?_, ?_⟩
  · rw [single_tensor, if_neg hne]
  · rw [single_tensor, if_neg hne, List.length_flatten]

theorem single_tensor_concat_witness :
    single_tensor [[[1, 2]]] = [[1, 2]]
    ∧ single_tensor [[[1, 2]], [[3, 4], [5, 6]]]
        = [[1, 2], [3, 4], [5, 6]] :=
  ⟨(single_tensor_concat [[1, 2]] [[[1, 2]], [[3, 4], [5, 6]]] 2
      (by norm_num) (by decide)).1,
   (single_tensor_concat [[1, 2]] [[[1, 2]], [[3, 4], [5, 6]]] 2
      (by norm_num) (by decide)).2.1⟩

/-- A numpy array as stored in an .npz entry: its shape and flat data. -/
structure NpzArray where
  shape : List Int
  data : List ℚ
deriving DecidableEq, Repr

/-- Python's rendering of a list of integers, as interpolated into the
error message by `"{}".format(...)`. -/
def pyIntListStr (xs : List Int) : String :=
  "[" ++ String.intercalate ", " (xs.map toString) ++ "]"

/-- Lines 40-46 of `from_file_list`: one loaded entry is validated —
`arr_shape = list(arr.shape); if arr_shape != shape: raise ValueError(...)`
— and yielded unchanged when the shapes match. -/
def from_file_list_check (shape : List Int) (arr : NpzArray) :
    Except String NpzArray :=
  let arr_shape := arr.shape
  if arr_shape ≠ shape then
    .error ("Shapes do not match: expected " ++ pyIntListStr shape
      ++ ", found " ++ pyIntListStr arr_shape)
  else .ok arr

/-- The generator returned by `from_file_list` (lines 34-47), run over the
loaded entries of all files named in the list files, in order: each array
is shape-checked and yielded; the first mismatch raises. -/
def from_file_list_load (shape : List Int) (arrs : List NpzArray) :
    Except String (List NpzArray) :=
  match arrs with
  | [] => .ok []
  | a :: rest => do
      let a2 ← from_file_list_check shape a
      let rest2 ← from_file_list_load shape rest
      pure (a2 :: rest2)

/-- C7: the sequence produced by `from_file_list` raises a shape-mismatch
error for a loaded array exactly when the array's shape-as-list differs
from the declared shape; the message names both the expected and the found
shape, a matching array is yielded unchanged, and the whole sequence
succeeds exactly when every array matches. -/
theorem from_file_list_shape_check (shape : List Int) (arr : NpzArray)
    (arrs : List NpzArray) (hmatch : arr.shape = shape) :
    from_file_list_check shape arr = .ok arr
    ∧ (∀ a : NpzArray, a.shape ≠ shape →
        from_file_list_check shape a
          = .error ("Shapes do not match: expected " ++ pyIntListStr shape
              ++ ", found " ++ pyIntListStr a.shape))
    ∧ (∀ a : NpzArray, (∃ b, from_file_list_check shape a = .ok b)
        ↔ a.shape = shape)
    ∧ (from_file_list_load shape arrs = .ok arrs
        ↔ ∀ a ∈ arrs, a.shape = shape) := by
  have hok : ∀ a : NpzArray, a.shape = shape →
      from_file_list_check shape a = .ok a := by
    intro a ha
    rw [from_file_list_check]
    simp [ha]
  have herr : ∀ a : NpzArray, a.shape ≠ shape →
      from_file_list_check shape a
        = .error ("Shapes do not match: expected " ++ pyIntListStr shape
            ++ ", found " ++ pyIntListStr a.shape) := by
    intro a ha
    rw [from_file_list_check]
    simp [ha]
  refine ⟨hok arr hmatch, herr, ?_, ?_⟩
  · intro a
    constructor
    · rintro ⟨b, hb⟩
      by_contra hne
      rw [herr a hne] at hb
      exact absurd hb (by simp)
    · intro ha
      exact ⟨a, hok a ha⟩
  · induction arrs with
    | nil => simp [from_file_list_load]
    | cons a rest ih =>
      constructor
      · intro hload
        rw [from_file_list_load] at hload
        by_cases ha : a.shape = shape
        · rw [hok a ha] at hload
          intro x hx
          rcases List.mem_cons.mp hx with hx | hx
          · rw [hx]; exact ha
          · rcases hrest : from_file_list_load shape rest with e | l
            · rw [hrest] at hload
              exact absurd hload (by simp [Bind.bind, Except.bind])
            · rw [hrest] at hload
              simp [Bind.bind, Except.bind, pure, Except.pure] at hload
              exact (ih.mp (by rw [hrest, hload])) x hx
        · rw [herr a ha] at hload
          exact absurd hload (by simp [Bind.bind, Except.bind])
      · intro hall
        have ha : a.shape = shape := hall a (by simp)
        rw [from_file_list_load, hok a ha,
          ih.mpr (fun x hx => hall x (by simp [hx]))]
        rfl

theorem from_file_list_shape_check_witness :
    from_file_list_check [2, 3] ⟨[2, 3], [1, 2, 3, 4, 5, 6]⟩
      = .ok ⟨[2, 3], [1, 2, 3, 4, 5, 6]⟩
    ∧ from_file_list_check [2, 3] ⟨[3, 2], [1, 2, 3, 4, 5, 6]⟩
      = .error "Shapes do not match: expected [2, 3], found [3, 2]" := by
  have h := from_file_list_shape_check [2, 3] ⟨[2, 3], [1, 2, 3, 4, 5, 6]⟩ []
    (by rfl)
  exact ⟨h.1, h.2.1 ⟨[3, 2], [1, 2, 3, 4, 5, 6]⟩ (by decide)⟩

/-!
## SequenceRegressor.feed_dict (decoders/sequence_regressor.py, 92-104)

`dataset.get_series(data_id, allow_none=True)` may return no series
(`none`).  When a series is present, the code binds
`fd[gt_inputs] = list(zip(*sentences_list))[0]`: Python's `zip(*rows)`
truncates at the shortest row, and the `[0]` indexing raises IndexError
when the zip is empty.  `train_mode` is always bound to `train`.
-/

/-- The bindings produced by `SequenceRegressor.feed_dict`. -/
structure RegFeedDict where
  gt_inputs : Option (List ℚ)
  train_mode : Bool
deriving DecidableEq, Repr

/-- Python `list(zip(*rows))`: the transpose truncated to the shortest
row; `zip()` of no iterables is empty. -/
def zip_star (rows : List (List ℚ)) : List (List ℚ) :=
  match rows with
  | [] => []
  | r :: rs =>
    (List.range ((rs.map List.length).foldl min r.length)).map
      (fun i => (r :: rs).map (fun row => row.getD i 0))

/-- Embeds `SequenceRegressor.feed_dict` (lines 92-104): when the series is
absent only `train_mode` is bound; when present, the first column of the
zipped rows is bound as the targets, and an empty zip makes the `[0]`
indexing raise IndexError. -/
def seqreg_feed_dict (series : Option (List (List ℚ))) (train : Bool) :
    Except String RegFeedDict :=
  match series with
  | none => .ok ⟨none, train⟩
  | some rows =>
    match (zip_star rows).head? with
    | none => .error "IndexError: list index out of range"
    | some firsts => .ok ⟨some firsts, train⟩

theorem foldl_min_le_init (xs : List Nat) (a : Nat) : xs.foldl min a ≤ a := by
  induction xs generalizing a with
  | nil => exact le_refl a
  | cons x xs ih => exact le_trans (ih (min a x)) (min_le_left a x)

theorem foldl_min_le_mem (xs : List Nat) (a x : Nat) (hx : x ∈ xs) :
    xs.foldl min a ≤ x := by
  induction xs generalizing a with
  | nil => simp at hx
  | cons y ys ih =>
    rcases List.mem_cons.mp hx with h | h
    · subst h
      exact le_trans (foldl_min_le_init ys (min a x)) (min_le_right a x)
    · exact ih (min a y) h

theorem le_foldl_min (k : Nat) (xs : List Nat) (a : Nat) (ha : k ≤ a)
    (h : ∀ x ∈ xs, k ≤ x) : k ≤ xs.foldl min a := by
  induction xs generalizing a with
  | nil => exact ha
  | cons x xs ih =>
    exact ih (min a x) (le_min ha (h x (by simp)))
      (fun y hy => h y (by simp [hy]))

/-- C9: when the ground-truth series named by `data_id` is absent from the
dataset, `SequenceRegressor.feed_dict` succeeds, binds no ground-truth
values, and binds only the training-mode flag, set to the given `train`
argument. -/
theorem seqreg_feed_dict_missing_series (train : Bool) :
    seqreg_feed_dict none train = .ok ⟨none, train⟩ := rfl

/-- C10: when the series is present, `feed_dict` binds as targets the
first element of each example's entry (`list(zip(*rows))[0]`), which
requires the series to be non-empty with every entry non-empty; otherwise
the `[0]` indexing raises IndexError and no targets are bound. -/
theorem seqreg_feed_dict_first_elements (rows : List (List ℚ)) (train : Bool) :
    (rows ≠ [] → (∀ r ∈ rows, r ≠ []) →
      seqreg_feed_dict (some rows) train
        = .ok ⟨some (rows.map (fun r => r.getD 0 0)), train⟩)
    ∧ ((rows = [] ∨ ∃ r ∈ rows, r = []) →
      seqreg_feed_dict (some rows) train
        = .error "IndexError: list index out of range") := by
  constructor
  · intro hne hall
    match rows, hne with
    | r :: rs, _ =>
      have h1r : 1 ≤ r.length := by
        have hr := hall r (by simp)
        cases r with
        | nil => simp at hr
        | cons a t => simp
      have h1s : ∀ x ∈ rs.map List.length, 1 ≤ x := by
        intro x hx
        obtain ⟨row, hrow, rfl⟩ := List.mem_map.mp hx
        have hr := hall row (by simp [hrow])
        cases row with
        | nil => simp at hr
        | cons a t => simp
      have hn : 1 ≤ (rs.map List.length).foldl min r.length :=
        le_foldl_min 1 _ _ h1r h1s
      obtain ⟨m, hm⟩ : ∃ m, (rs.map List.length).foldl min r.length
          = m + 1 := ⟨(rs.map List.length).foldl min r.length - 1, by omega⟩
      have hhead : (zip_star (r :: rs)).head?
          = some ((r :: rs).map (fun row => row.getD 0 0)) := by
        show (((List.range ((rs.map List.length).foldl min r.length)).map
          (fun i => (r :: rs).map (fun row => row.getD i 0)))).head? = _
        rw [hm, List.range_succ_eq_map]
        simp
      simp [seqreg_feed_dict, hhead]
  · intro h
    match rows with
    | [] => rfl
    | r :: rs =>
      have hr0 : (rs.map List.length).foldl min r.length = 0 := by
        rcases h with h | ⟨row, hrow, hrow0⟩
        · simp at h
        · rcases List.mem_cons.mp hrow with h1 | h1
          · have : r.length = 0 := by rw [← h1, hrow0]; rfl
            have := foldl_min_le_init (rs.map List.length) r.length
            omega
          · have hmem : (0 : Nat) ∈ rs.map List.length := by
              refine List.mem_map.mpr ⟨row, h1, ?_⟩
              rw [hrow0]
              rfl
            have := foldl_min_le_mem (rs.map List.length) r.length 0 hmem
            omega
      have hzip : zip_star (r :: rs) = [] := by
        show ((List.range ((rs.map List.length).foldl min r.length)).map
          (fun i => (r :: rs).map (fun row => row.getD i 0))) = []
        rw [hr0]
        rfl
      simp [seqreg_feed_dict, hzip]

theorem seqreg_feed_dict_first_elements_witness :
    seqreg_feed_dict (some [[1, 2], [3]]) true = .ok ⟨some [1, 3], true⟩ := by
  have h := (seqreg_feed_dict_first_elements [[1, 2], [3]] true).1
    (by decide) (by decide)
  simpa using h
